/-
A verification development for the localllm repository.

We give a shallow embedding of the three core modules:

  * the worker pool (`src/utils/workerModule.js`, class `LLMWorkerPool`),
  * the worker-side execution unit (`src/workers/llmWorker.js`),
  * the chunked downloader and its IndexedDB store
    (`src/utils/chunkingModule.js` and `src/utils/indexedDBModule.js`).

JavaScript objects become Lean structures, the IndexedDB tables become
association lists keyed exactly as the code keys them (primary string keys,
secondary `modelId` index), asynchronous calls whose outcome is decided by an
external collaborator (the network, the model runtime, the message channel)
are parametrised by an explicit outcome value, and `throw` becomes
`Except.error` while a resolved promise becomes `Except.ok`.
-/
import Mathlib

namespace LocalLLM

/-! ## Decimal rendering of natural numbers

JavaScript template literals such as `` `${modelId}_chunk_${index}` ``
render the chunk index in decimal.  We model that rendering with a
fuel-based (hence kernel-computable) digit expansion and prove it injective,
which is what makes the derived chunk keys collision-free for a fixed model.
-/

/-- Digit expansion in base 10, most significant digit first, accumulator
style.  The fuel is always sufficient (we call it with `n + 1`). -/
def natDigitsCore : Nat → Nat → List Nat → List Nat
  | 0, _, acc => acc
  | fuel + 1, n, acc =>
    if n < 10 then n :: acc else natDigitsCore fuel (n / 10) (n % 10 :: acc)

/-- The base-10 digits of `n`, most significant first. -/
def natDigits (n : Nat) : List Nat :=
  natDigitsCore (n + 1) n []

/-- Folding digits back into the number they denote. -/
def undigits (ds : List Nat) : Nat :=
  ds.foldl (fun a d => a * 10 + d) 0

/-- The character a decimal digit renders to. -/
def digitToChar : Nat → Char
  | 0 => '0'
  | 1 => '1'
  | 2 => '2'
  | 3 => '3'
  | 4 => '4'
  | 5 => '5'
  | 6 => '6'
  | 7 => '7'
  | 8 => '8'
  | 9 => '9'
  | _ => '*'

/-- The decimal string a JavaScript template literal produces for a
natural number. -/
def natToString (n : Nat) : String :=
  ((natDigits n).map digitToChar).asString

/-! ## The IndexedDB store (`src/utils/indexedDBModule.js`)

The database has a `models` table keyed by `id` and a `chunks` table keyed by
`id` with a secondary index on `modelId`.  We model each table as a list of
records; `put` replaces the record with the same key or appends a new one
(record order inside a table is not observable through the module's API).
Chunk payloads are opaque blobs; only their presence matters to the claims,
so the `data` field is dropped from the chunk record model.
-/

/-- A record of the `models` table (saved by `saveModelMetadata` in
`downloadModelInChunks`). -/
structure ModelMeta where
  id : String
  url : String
  size : Nat
  chunkSize : Nat
  chunks : Nat
deriving DecidableEq

/-- A record of the `chunks` table (saved by `saveModelChunk`). -/
structure ChunkRec where
  id : String
  modelId : String
  index : Nat
deriving DecidableEq

/-- The two object stores of the `LLMModelStorage` database. -/
structure Store where
  models : List ModelMeta
  chunks : List ChunkRec
deriving DecidableEq

namespace IndexedDB

/-- The derived chunk key `` `${modelId}_chunk_${index}` ``. -/
def chunkKey (modelId : String) (index : Nat) : String :=
  modelId ++ "_chunk_" ++ LocalLLM.natToString index

/-- `db.put('models', m)`: insert or replace by primary key `id`. -/
def putModel (l : List ModelMeta) (m : ModelMeta) : List ModelMeta :=
  if l.any (fun x => x.id == m.id) then
    l.map (fun x => if x.id == m.id then m else x)
  else
    l ++ [m]

/-- `db.put('chunks', c)`: insert or replace by primary key `id`. -/
def putChunk (l : List ChunkRec) (c : ChunkRec) : List ChunkRec :=
  if l.any (fun x => x.id == c.id) then
    l.map (fun x => if x.id == c.id then c else x)
  else
    l ++ [c]

/-- `saveModelMetadata(model)`: throws when the id is missing, otherwise
puts the record into the `models` table. -/
def saveModelMetadata (st : Store) (m : ModelMeta) : Except String Store :=
  if m.id = "" then
    .error "Invalid model metadata: missing ID"
  else
    .ok { st with models := putModel st.models m }

/-- `getModelMetadata(modelId)`: `db.get('models', modelId)`. -/
def getModelMetadata (st : Store) (modelId : String) : Option ModelMeta :=
  st.models.find? (fun m => m.id == modelId)

/-- `hasModelInDB(modelId)`: truthiness of `db.get('models', modelId)`. -/
def hasModelInDB (st : Store) (modelId : String) : Bool :=
  (getModelMetadata st modelId).isSome

/-- `saveModelChunk(modelId, index, data)`: throws when the model id is
missing, otherwise puts a record keyed by the derived chunk id. -/
def saveModelChunk (st : Store) (modelId : String) (index : Nat) :
    Except String Store :=
  if modelId = "" then
    .error "Model ID is required"
  else
    .ok { st with
      chunks := putChunk st.chunks ⟨chunkKey modelId index, modelId, index⟩ }

/-- `getModelChunk(modelId, index)`: `db.get('chunks', chunkId)`, `null`
when absent. -/
def getModelChunk (st : Store) (modelId : String) (index : Nat) :
    Option ChunkRec :=
  st.chunks.find? (fun c => c.id == chunkKey modelId index)

/-! ## `deleteModel` and transaction atomicity

`deleteModel(modelId)` (lines 178–201 of `indexedDBModule.js`) opens one
`readwrite` transaction over both tables, deletes the metadata record,
reads all chunks of the model through the `modelId` index, deletes each by
its primary key, and awaits `tx.done`.  IndexedDB applies a transaction
atomically: either it commits (all queued operations are applied) or it
aborts (none are).  We model the operation list the code queues and the
two possible transaction outcomes.
-/


/-- One queued operation of the delete transaction. -/
inductive TxOp where
  | delModel (id : String)
  | delChunk (id : String)
deriving DecidableEq

/-- Apply one committed operation to the store. -/
def applyOp (st : Store) : TxOp → Store
  | .delModel mid => { st with models := st.models.filter (fun m => ¬ m.id == mid) }
  | .delChunk cid => { st with chunks := st.chunks.filter (fun c => ¬ c.id == cid) }

/-- The operations `deleteModel(modelId)` queues inside its single
transaction: the metadata delete, then one delete per chunk record found
through the `modelId` index. -/
def deleteModelOps (st : Store) (modelId : String) : List TxOp :=
  .delModel modelId ::
    (st.chunks.filter (fun c => c.modelId == modelId)).map (fun c => .delChunk c.id)

/-- `deleteModel(modelId)` under transaction outcome `committed`:
IndexedDB applies all queued operations or none. -/
def deleteModel (st : Store) (modelId : String) (committed : Bool) : Store :=
  if committed then (deleteModelOps st modelId).foldl applyOp st else st

end IndexedDB

/-! ## The chunked downloader (`src/utils/chunkingModule.js`)

The network is a parameter: `headOk`/`contentLength` describe the HEAD
probe, and `rangeOk i` tells whether the ranged GET for chunk `i` returns a
success status.  Every ranged request the loop issues is recorded (with the
byte span taken verbatim from the `Range` header the code builds), so that
claims counting network calls are statable.  A JavaScript `throw` becomes
`Except.error`; the request log is returned alongside so that an aborted
run still shows the requests it made.
-/

namespace Chunking

open IndexedDB

/-- One ranged GET: `Range: bytes=${first}-${last}` for chunk `index`. -/
structure RangeReq where
  index : Nat
  first : Nat
  last : Nat
deriving DecidableEq

/-- The network collaborator's behaviour for one download run. -/
structure DownloadNet where
  headOk : Bool
  contentLength : Nat
  rangeOk : Nat → Bool

/-- The per-chunk loop of `downloadModelInChunks` (lines 70–117): for each
index, skip when the chunk is already in the store, otherwise issue the
ranged fetch `bytes = i*chunkSize .. min(contentLength, i*chunkSize +
chunkSize - 1)`, abort on a failed fetch, and persist on success. -/
def downloadChunks (modelId : String) (contentLength chunkSize : Nat)
    (rangeOk : Nat → Bool) :
    List Nat → Store → List RangeReq → List RangeReq × Except String Store
  | [], st, reqs => (reqs, .ok st)
  | i :: rest, st, reqs =>
    if (getModelChunk st modelId i).isSome then
      downloadChunks modelId contentLength chunkSize rangeOk rest st reqs
    else
      let start := i * chunkSize
      let req : RangeReq := ⟨i, start, min contentLength (start + chunkSize - 1)⟩
      if rangeOk i then
        match saveModelChunk st modelId i with
        | .ok st1 =>
          downloadChunks modelId contentLength chunkSize rangeOk rest st1 (reqs ++ [req])
        | .error e => (reqs ++ [req], .error e)
      else
        (reqs ++ [req], .error "Failed to download chunk")

/-- `downloadModelInChunks(url, modelId, {chunkSize})`: HEAD probe, size
check, metadata save, then the chunk loop. -/
def downloadModelInChunks (net : DownloadNet) (url modelId : String)
    (chunkSize : Nat) (st : Store) : List RangeReq × Except String Store :=
  if ¬ net.headOk then
    ([], .error "Failed to get model file size")
  else if net.contentLength = 0 then
    ([], .error "Could not determine model file size")
  else
    let contentLength := net.contentLength
    let numChunks := (contentLength + chunkSize - 1) / chunkSize
    match saveModelMetadata st ⟨modelId, url, contentLength, chunkSize, numChunks⟩ with
    | .error e => ([], .error e)
    | .ok st1 =>
      downloadChunks modelId contentLength chunkSize net.rangeOk
        (List.range numChunks) st1 []

/-- `isModelDownloadComplete(modelId)`: metadata must exist and a chunk must
be found for every index below the recorded chunk count, re-read from the
store on every call. -/
def isModelDownloadComplete (st : Store) (modelId : String) : Bool :=
  if hasModelInDB st modelId then
    match getModelMetadata st modelId with
    | none => false
    | some meta =>
      (List.range meta.chunks).all (fun i => (getModelChunk st modelId i).isSome)
  else
    false

/-- `resumeModelDownload(modelId)`: look up the saved metadata and re-run
`downloadModelInChunks` with the saved url and chunk size. -/
def resumeModelDownload (net : DownloadNet) (modelId : String) (st : Store) :
    List RangeReq × Except String Store :=
  match getModelMetadata st modelId with
  | none => ([], .error ("Model " ++ modelId ++ " not found in database"))
  | some meta => downloadModelInChunks net meta.url modelId meta.chunkSize st

/-- The record `saveModelChunk` writes for chunk `i` of a model. -/
def chunkRecOf (modelId : String) (i : Nat) : ChunkRec :=
  ⟨chunkKey modelId i, modelId, i⟩

/-- The ranged request the loop issues for chunk `i`. -/
def reqOf (contentLength chunkSize i : Nat) : RangeReq :=
  ⟨i, i * chunkSize, min contentLength (i * chunkSize + chunkSize - 1)⟩

end Chunking

/-! ## The worker pool (`src/utils/workerModule.js`, class `LLMWorkerPool`)

A worker slot is identified by its index (the code uses the string
`` `worker-${i}` ``; the id format is not load-bearing, only identity is).
The pool state carries the `idle` array, the `busy` map (modelled as the
list of busy worker ids, which is what the map's key set is) and the FIFO
`taskQueue` of suspended `getWorker` callers (identified by opaque tokens).
The callback table and the actual `Worker` handles play no role in the slot
accounting and are omitted from the state.
-/

namespace LLMWorkerPool

/-- The slot-accounting state of one `LLMWorkerPool` instance. -/
structure PoolState where
  idle : List Nat
  busy : List Nat
  queue : List Nat
deriving DecidableEq

/-- The state after the constructor ran with pool size `N` (every worker
construction succeeded, as in any environment where `Worker` is
available): workers `0 .. N-1` are pushed into `idle`. -/
def initState (N : Nat) : PoolState :=
  ⟨List.range N, [], []⟩

/-- Outcome of a `getWorker()` call as seen by the caller. -/
inductive AcquireResult where
  | granted (workerId : Nat)
  | enqueued
deriving DecidableEq

/-- `getWorker()`: take the first idle worker and move it into the busy
map, or push the caller's continuation onto `taskQueue`. -/
def getWorker (st : PoolState) (caller : Nat) : AcquireResult × PoolState :=
  match st.idle with
  | w :: rest => (.granted w, { st with idle := rest, busy := st.busy ++ [w] })
  | [] => (.enqueued, { st with queue := st.queue ++ [caller] })

/-- What `releaseWorker(workerId)` did. -/
inductive ReleaseEffect where
  | handedTo (waiter : Nat) (workerId : Nat)
  | parkedIdle
  | notBusyWarned
deriving DecidableEq

/-- `releaseWorker(workerId)`: warn and return when the id is not busy;
otherwise remove it from the busy map and either hand it straight to the
oldest queued waiter (re-entering the busy map) or push it back to idle. -/
def releaseWorker (st : PoolState) (workerId : Nat) : ReleaseEffect × PoolState :=
  if workerId ∈ st.busy then
    let busy1 := st.busy.erase workerId
    match st.queue with
    | waiter :: restQ =>
      (.handedTo waiter workerId,
        { st with busy := busy1 ++ [workerId], queue := restQ })
    | [] => (.parkedIdle, { st with idle := st.idle ++ [workerId], busy := busy1 })
  else
    (.notBusyWarned, st)

/-- `terminate()`: all bookkeeping cleared. -/
def terminate (_st : PoolState) : PoolState :=
  ⟨[], [], []⟩

/-- The pool-level transitions that touch slot accounting: `getWorker`
(also the first step of `loadModel`), `releaseWorker` (also run by a failed
`loadModel` and by `unloadModel`), and `terminate`.  `generateText` and
`chatCompletion` only read the busy map. -/
inductive Step : PoolState → PoolState → Prop
  | acquire (caller : Nat) (st : PoolState) : Step st (getWorker st caller).2
  | release (workerId : Nat) (st : PoolState) : Step st (releaseWorker st workerId).2
  | terminate (st : PoolState) : Step st (terminate st)

/-- States reachable from a freshly constructed pool of size `N`. -/
inductive Reachable (N : Nat) : PoolState → Prop
  | init : Reachable N (initState N)
  | step {st st' : PoolState} : Reachable N st → Step st st' → Reachable N st'

/-- The slot-accounting invariant: never more slots than `N` in total, and
no worker id appears twice across the idle list and the busy map (so no
slot is ever held by two callers at once). -/
def PoolInv (N : Nat) (st : PoolState) : Prop :=
  st.idle.length + st.busy.length ≤ N ∧ (st.idle ++ st.busy).Nodup

/-! ### Pool operations built on the slot accounting

`sendWorkerMessage` resolves or rejects through the message channel; its
outcome (and, inside it, the structured result object the worker posted)
is a parameter.  `loadModel` in `workerModule.js` spreads the worker's
result object and then sets `workerId` and `success: true` on top of it,
so the worker's own `success` field is overwritten; it releases the slot
only in its `catch` branch, i.e. only when the channel rejected.
-/

/-- The result object the worker-side `loadModel` resolves with (already
structured: `{success, modelId?, message?, error?}`). -/
structure LoadReply where
  success : Bool
  modelId : Option String
  message : Option String
  error : Option String
deriving DecidableEq

/-- Outcome of one `sendWorkerMessage` round trip: the worker posted a
`result` (promise resolved) or posted an `error` (promise rejected). -/
inductive ChannelOutcome (α : Type) where
  | resolved (r : α)
  | rejected (msg : String)

/-- The object `LLMWorkerPool.loadModel` returns:
`{...result, workerId, success: true}` on a resolved channel, or
`{success: false, error}` on a rejected one. -/
structure PoolLoadResult where
  success : Bool
  workerId : Option Nat
  modelId : Option String
  message : Option String
  error : Option String
deriving DecidableEq

/-- How one `loadModel` call ends, together with the pool state it leaves
behind.  `suspendedInQueue` is the case where no idle worker existed and the
call is parked in `taskQueue` awaiting a release. -/
inductive LoadCallEnd where
  | suspendedInQueue (st : PoolState)
  | completed (res : PoolLoadResult) (st : PoolState)

/-- `LLMWorkerPool.loadModel(modelId, options)` (lines 149–170 of
`workerModule.js`), for a call whose channel outcome is `outcome`. -/
def loadModel (st : PoolState) (caller : Nat)
    (outcome : ChannelOutcome LoadReply) : LoadCallEnd :=
  match getWorker st caller with
  | (.enqueued, st1) => .suspendedInQueue st1
  | (.granted w, st1) =>
    match outcome with
    | .resolved r =>
      .completed ⟨true, some w, r.modelId, r.message, r.error⟩ st1
    | .rejected msg =>
      .completed
        ⟨false, none, none, none,
          some (if msg = "" then "Unknown error loading model" else msg)⟩
        (releaseWorker st1 w).2

/-- The structured result object of `generateText`/`chatCompletion`
(resolved value or the `{success:false, error}` built in the catch). -/
structure GenReply where
  success : Bool
  text : Option String
  error : Option String
deriving DecidableEq

/-- `LLMWorkerPool.generateText(workerId, prompt, options)` (lines
179–197): throws (rejected promise) when the id is not in the busy map;
otherwise returns the resolved result, or a structured failure if the
channel rejected. -/
def generateText (st : PoolState) (workerId : Nat)
    (outcome : ChannelOutcome GenReply) : Except String GenReply :=
  if workerId ∈ st.busy then
    match outcome with
    | .resolved r => .ok r
    | .rejected msg =>
      .ok ⟨false, none,
        some (if msg = "" then "Unknown error generating text" else msg)⟩
  else
    .error ("Worker " ++ natToString workerId ++ " not found or not busy")

/-- `LLMWorkerPool.chatCompletion(workerId, messages, options)` (lines
206–224): same shape as `generateText`. -/
def chatCompletion (st : PoolState) (workerId : Nat)
    (outcome : ChannelOutcome GenReply) : Except String GenReply :=
  if workerId ∈ st.busy then
    match outcome with
    | .resolved r => .ok r
    | .rejected msg =>
      .ok ⟨false, none,
        some (if msg = "" then "Unknown error in chat completion" else msg)⟩
  else
    .error ("Worker " ++ natToString workerId ++ " not found or not busy")

end LLMWorkerPool

/-! ## The execution unit (`src/workers/llmWorker.js`)

The worker owns three module-level state variables: `engine`, `modelId`
and `isLoading`.  `CreateMLCEngine` is the external model-runtime factory;
its outcome for one call is a parameter.  A `throw` that escapes a handler
reaches the worker's `onmessage` dispatcher and is posted back as a channel
`error` (a rejection on the pool side); a returned object is posted as a
resolved `result`.
-/

namespace LLMWorker

/-- An engine handle together with the generation methods it exposes
(probed with `typeof x.f === 'function'` in the worker). -/
structure Engine where
  handle : Nat
  hasGenerate : Bool
  hasCompletion : Bool
  hasChatCompletion : Bool
deriving DecidableEq

/-- The worker's module-level state (`engine`, `modelId`, `isLoading`). -/
structure UnitState where
  engine : Option Engine
  modelId : Option String
  isLoading : Bool
deriving DecidableEq

/-- The `Empty` unit state: nothing loaded, not loading. -/
def emptyUnit : UnitState :=
  ⟨none, none, false⟩

/-- Outcome of one `CreateMLCEngine(modelId, opts)` call. -/
inductive FactoryOutcome where
  | created (e : Engine)
  | threw (msg : String)

/-- Worker-side `loadModel(requestModelId, options)` (lines 95–148 of
`llmWorker.js`).  The `Except.error` case is the `throw` for a concurrent
load; every other path resolves with a structured reply.  On factory
failure the `catch` resets `engine` and `modelId` to `null` and the
`finally` clears `isLoading`. -/
def loadModel (st : UnitState) (requestModelId : String)
    (outcome : FactoryOutcome) : Except String (LLMWorkerPool.LoadReply × UnitState) :=
  if st.isLoading then
    .error "Already loading a model"
  else if st.engine.isSome ∧ st.modelId = some requestModelId then
    .ok (⟨true, some requestModelId, some "Model already loaded", none⟩, st)
  else
    match outcome with
    | .created e =>
      .ok (⟨true, some requestModelId, some "Model loaded successfully", none⟩,
        ⟨some e, some requestModelId, false⟩)
    | .threw msg =>
      .ok (⟨false, some requestModelId, none,
          some (if msg = "" then "Unknown error loading model" else msg)⟩,
        ⟨none, none, false⟩)

/-- A chat message `{role, content}`. -/
structure ChatMsg where
  role : String
  content : String
deriving DecidableEq

/-- Model of JavaScript `String.prototype.trim`: strip leading and
trailing whitespace. -/
def jsWhitespace (c : Char) : Bool :=
  c = ' ' ∨ c = '\t' ∨ c = '\n' ∨ c = '\r' ∨ c = '\x0b' ∨ c = '\x0c'

/-- `s.trim()` on the characters of `s`. -/
def jsTrim (s : String) : String :=
  ⟨((s.data.dropWhile jsWhitespace).reverse.dropWhile jsWhitespace).reverse⟩

/-- The message-preparation block of the worker's `chatCompletion`
(lines 196–216): when `options.systemPrompt` is present and non-blank,
prepend a system message if none exists, otherwise rewrite every
system-role message to carry the new prompt; the result is the `messages`
array handed to `engine.chatCompletion`. -/
def prepareChatMessages (systemPrompt : Option String)
    (messages : List ChatMsg) : List ChatMsg :=
  match systemPrompt with
  | none => messages
  | some sp =>
    if sp ≠ "" ∧ jsTrim sp ≠ "" then
      if messages.any (fun m => m.role == "system") then
        messages.map (fun m =>
          if m.role == "system" then ⟨"system", sp⟩ else m)
      else
        ⟨"system", sp⟩ :: messages
    else
      messages

/-- Worker-side `generateText(prompt, options)` (lines 156–180): the
`No model loaded` throw sits outside the `try`, so it escapes as a channel
error; everything inside the `try` is folded into a structured reply.
`callOutcome` is the engine call's result when one is made. -/
def generateText (st : UnitState)
    (callOutcome : Except String String) : Except String LLMWorkerPool.GenReply :=
  match st.engine with
  | none => .error "No model loaded"
  | some eng =>
    if eng.hasGenerate then
      match callOutcome with
      | .ok t => .ok ⟨true, some t, none⟩
      | .error msg =>
        .ok ⟨false, none,
          some (if msg = "" then "Unknown error during text generation" else msg)⟩
    else if eng.hasCompletion then
      match callOutcome with
      | .ok t => .ok ⟨true, some t, none⟩
      | .error msg =>
        .ok ⟨false, none,
          some (if msg = "" then "Unknown error during text generation" else msg)⟩
    else
      .ok ⟨false, none, some "Model does not support text generation"⟩

/-- What the worker-side `chatCompletion(messages, options)` (lines
188–233) does, together with the message list the runtime received (when
it was called at all). -/
structure ChatCallResult where
  reply : Except String LLMWorkerPool.GenReply
  sentMessages : Option (List ChatMsg)

/-- Worker-side `chatCompletion`: `No model loaded` escapes as a channel
error; a runtime without `chatCompletion` yields a structured failure; a
runtime with it receives exactly `prepareChatMessages systemPrompt
messages`. -/
def chatCompletion (st : UnitState) (systemPrompt : Option String)
    (messages : List ChatMsg) (callOutcome : Except String Unit) : ChatCallResult :=
  match st.engine with
  | none => ⟨.error "No model loaded", none⟩
  | some eng =>
    if eng.hasChatCompletion then
      let sent := prepareChatMessages systemPrompt messages
      match callOutcome with
      | .ok _ => ⟨.ok ⟨true, none, none⟩, some sent⟩
      | .error msg =>
        ⟨.ok ⟨false, none,
          some (if msg = "" then "Unknown error during chat completion" else msg)⟩,
          some sent⟩
    else
      ⟨.ok ⟨false, none, some "Model does not support chat completion"⟩, none⟩

end LLMWorker

/-! ## Support lemmas -/

theorem natDigitsCore_acc (fuel n : Nat) (acc : List Nat)
    (hfuel : 0 < fuel) (hn : n < 10 ^ fuel) :
    natDigitsCore fuel n acc = natDigitsCore fuel n [] ++ acc := by
  induction fuel generalizing n acc with
  | zero => omega
  | succ fuel ih =>
    by_cases h : n < 10
    · simp [natDigitsCore, h]
    · have hfuel' : 0 < fuel := by
        rcases Nat.eq_zero_or_pos fuel with h0 | h0
        · subst h0; simp [pow_succ, pow_zero] at hn; omega
        · exact h0
      have hdiv : n / 10 < 10 ^ fuel := by
        rw [Nat.div_lt_iff_lt_mul (by omega)]
        calc n < 10 ^ (fuel + 1) := hn
        _ = 10 ^ fuel * 10 := by ring
      simp only [natDigitsCore, if_neg h]
      rw [ih (n / 10) (n % 10 :: acc) hfuel' hdiv,
        ih (n / 10) [n % 10] hfuel' hdiv, List.append_assoc]
      rfl

theorem undigits_append_singleton (ds : List Nat) (d : Nat) :
    undigits (ds ++ [d]) = undigits ds * 10 + d := by
  simp [undigits, List.foldl_append]

theorem undigits_natDigitsCore (fuel n : Nat) (hn : n < 10 ^ fuel) :
    undigits (natDigitsCore fuel n []) = n := by
  induction fuel generalizing n with
  | zero =>
    have hn0 : n = 0 := by simpa using hn
    subst hn0
    simp [natDigitsCore, undigits]
  | succ fuel ih =>
    by_cases h : n < 10
    · simp [natDigitsCore, h, undigits]
    · have hfuel' : 0 < fuel := by
        rcases Nat.eq_zero_or_pos fuel with h0 | h0
        · subst h0; simp [pow_succ, pow_zero] at hn; omega
        · exact h0
      have hdiv : n / 10 < 10 ^ fuel := by
        rw [Nat.div_lt_iff_lt_mul (by omega)]
        calc n < 10 ^ (fuel + 1) := hn
        _ = 10 ^ fuel * 10 := by ring
      simp only [natDigitsCore, if_neg h]
      rw [natDigitsCore_acc fuel (n / 10) [n % 10] hfuel' hdiv,
        undigits_append_singleton, ih (n / 10) hdiv]
      omega

theorem n_lt_ten_pow (n : Nat) : n < 10 ^ (n + 1) := by
  have h1 : n < 2 ^ n := Nat.lt_two_pow n
  have h2 : (2 : Nat) ^ n ≤ 2 ^ (n + 1) := Nat.pow_le_pow_right (by omega) (by omega)
  have h3 : (2 : Nat) ^ (n + 1) ≤ 10 ^ (n + 1) := Nat.pow_le_pow_left (by omega) _
  omega

theorem undigits_natDigits (n : Nat) : undigits (natDigits n) = n :=
  undigits_natDigitsCore (n + 1) n (n_lt_ten_pow n)

theorem natDigits_injective : Function.Injective natDigits := by
  intro m n h
  have := congrArg undigits h
  simpa [undigits_natDigits] using this

theorem natDigitsCore_lt_ten (fuel n : Nat) (acc : List Nat)
    (hacc : ∀ d ∈ acc, d < 10) :
    ∀ d ∈ natDigitsCore fuel n acc, d < 10 := by
  induction fuel generalizing n acc with
  | zero => simpa [natDigitsCore] using hacc
  | succ fuel ih =>
    by_cases h : n < 10
    · simp only [natDigitsCore, if_pos h]
      intro d hd
      rcases List.mem_cons.mp hd with rfl | hd
      · exact h
      · exact hacc d hd
    · simp only [natDigitsCore, if_neg h]
      refine ih (n / 10) (n % 10 :: acc) ?_
      intro d hd
      rcases List.mem_cons.mp hd with rfl | hd
      · exact Nat.mod_lt _ (by omega)
      · exact hacc d hd

theorem natDigits_lt_ten (n : Nat) : ∀ d ∈ natDigits n, d < 10 :=
  natDigitsCore_lt_ten (n + 1) n [] (by simp)

theorem digitToChar_inj_lt :
    ∀ d < 10, ∀ e < 10, digitToChar d = digitToChar e → d = e := by
  decide

theorem map_digitToChar_inj (xs ys : List Nat)
    (hx : ∀ d ∈ xs, d < 10) (hy : ∀ d ∈ ys, d < 10)
    (h : xs.map digitToChar = ys.map digitToChar) : xs = ys := by
  induction xs generalizing ys with
  | nil => cases ys <;> simp_all
  | cons a xs ih =>
    cases ys with
    | nil => simp at h
    | cons b ys =>
      simp only [List.map_cons, List.cons.injEq] at h
      have ha : a < 10 := hx a (by simp)
      have hb : b < 10 := hy b (by simp)
      have hab : a = b := digitToChar_inj_lt a ha b hb h.1
      subst hab
      have htail := ih ys (fun d hd => hx d (List.mem_cons_of_mem _ hd))
        (fun d hd => hy d (List.mem_cons_of_mem _ hd)) h.2
      rw [htail]

theorem natToString_injective : Function.Injective natToString := by
  intro m n h
  have hdata : ((natDigits m).map digitToChar) = ((natDigits n).map digitToChar) := by
    have := congrArg String.data h
    simpa [natToString, List.asString] using this
  exact natDigits_injective
    (map_digitToChar_inj _ _ (natDigits_lt_ten m) (natDigits_lt_ten n) hdata)

namespace IndexedDB

theorem chunkKey_inj_index {m : String} {i j : Nat}
    (h : chunkKey m i = chunkKey m j) : i = j := by
  have hdata := congrArg String.data h
  simp only [chunkKey, String.data_append] at hdata
  have := List.append_cancel_left hdata
  have hstr : LocalLLM.natToString i = LocalLLM.natToString j := by
    cases hsi : LocalLLM.natToString i with
    | mk di =>
      cases hsj : LocalLLM.natToString j with
      | mk dj =>
        simp only [hsi, hsj] at this
        simp_all
  exact LocalLLM.natToString_injective hstr

theorem applyOp_models_subset (st : Store) (op : TxOp) :
    ∀ m ∈ (applyOp st op).models, m ∈ st.models := by
  intro m hm
  cases op with
  | delModel mid => exact List.mem_of_mem_filter hm
  | delChunk cid => exact hm

theorem applyOp_chunks_subset (st : Store) (op : TxOp) :
    ∀ c ∈ (applyOp st op).chunks, c ∈ st.chunks := by
  intro c hc
  cases op with
  | delModel mid => exact hc
  | delChunk cid => exact List.mem_of_mem_filter hc

theorem foldl_applyOp_models (ops : List TxOp) (st : Store) :
    ∀ m ∈ (ops.foldl applyOp st).models,
      m ∈ st.models ∧ ∀ mid, TxOp.delModel mid ∈ ops → ¬ (m.id == mid) := by
  induction ops generalizing st with
  | nil => exact fun m hm => ⟨hm, by simp⟩
  | cons op rest ih =>
    intro m hm
    obtain ⟨hmem, hops⟩ := ih (applyOp st op) m hm
    refine ⟨applyOp_models_subset st op m hmem, ?_⟩
    intro mid hmid
    rcases List.mem_cons.mp hmid with rfl | hmid
    · have := List.of_mem_filter hmem
      simpa using this
    · exact hops mid hmid

theorem foldl_applyOp_chunks (ops : List TxOp) (st : Store) :
    ∀ c ∈ (ops.foldl applyOp st).chunks,
      c ∈ st.chunks ∧ ∀ cid, TxOp.delChunk cid ∈ ops → ¬ (c.id == cid) := by
  induction ops generalizing st with
  | nil => exact fun c hc => ⟨hc, by simp⟩
  | cons op rest ih =>
    intro c hc
    obtain ⟨hmem, hops⟩ := ih (applyOp st op) c hc
    refine ⟨applyOp_chunks_subset st op c hmem, ?_⟩
    intro cid hcid
    rcases List.mem_cons.mp hcid with rfl | hcid
    · have := List.of_mem_filter hmem
      simpa using this
    · exact hops cid hcid

theorem foldl_applyOp_chunks_keep (ops : List TxOp) (st : Store) (c : ChunkRec)
    (hc : c ∈ st.chunks) (hkeep : ∀ cid, TxOp.delChunk cid ∈ ops → c.id ≠ cid) :
    c ∈ (ops.foldl applyOp st).chunks := by
  induction ops generalizing st with
  | nil => exact hc
  | cons op rest ih =>
    refine ih (applyOp st op) ?_ (fun cid hcid => hkeep cid (by simp [hcid]))
    cases op with
    | delModel mid => exact hc
    | delChunk cid =>
      refine List.mem_filter.mpr ⟨hc, ?_⟩
      have := hkeep cid (by simp)
      simpa using this

theorem foldl_applyOp_models_keep (ops : List TxOp) (st : Store) (m : ModelMeta)
    (hm : m ∈ st.models) (hkeep : ∀ mid, TxOp.delModel mid ∈ ops → m.id ≠ mid) :
    m ∈ (ops.foldl applyOp st).models := by
  induction ops generalizing st with
  | nil => exact hm
  | cons op rest ih =>
    refine ih (applyOp st op) ?_ (fun mid hmid => hkeep mid (by simp [hmid]))
    cases op with
    | delChunk cid => exact hm
    | delModel mid =>
      refine List.mem_filter.mpr ⟨hm, ?_⟩
      have := hkeep mid (by simp)
      simpa using this

end IndexedDB

namespace Chunking

open IndexedDB

theorem getModelChunk_append_one (st : Store) (modelId : String) (c : ChunkRec)
    (i : Nat) (hid : c.id ≠ chunkKey modelId i) :
    getModelChunk { st with chunks := st.chunks ++ [c] } modelId i =
      getModelChunk st modelId i := by
  simp only [getModelChunk, List.find?_append]
  cases h : st.chunks.find? (fun x => x.id == chunkKey modelId i) with
  | some c0 => simp [h]
  | none =>
    have hfalse : (c.id == chunkKey modelId i) = false := by
      simpa using hid
    simp [h, List.find?, hfalse]

theorem saveModelChunk_absent (st : Store) (modelId : String) (i : Nat)
    (hm : modelId ≠ "") (habs : ¬ (getModelChunk st modelId i).isSome) :
    saveModelChunk st modelId i =
      .ok { st with chunks := st.chunks ++ [chunkRecOf modelId i] } := by
  have hnone : st.chunks.find? (fun c => c.id == chunkKey modelId i) = none := by
    cases h : st.chunks.find? (fun c => c.id == chunkKey modelId i) with
    | none => rfl
    | some c => exact absurd (by simp [getModelChunk, h]) habs
  have hany : st.chunks.any (fun x => x.id == chunkKey modelId i) = false := by
    rw [List.any_eq_false]
    intro x hx
    have := List.find?_eq_none.mp hnone x hx
    simpa using this
  simp [saveModelChunk, hm, putChunk, hany, chunkRecOf]

theorem downloadChunks_acc (modelId : String) (S C : Nat) (rk : Nat → Bool)
    (is : List Nat) (st : Store) (reqs : List RangeReq) :
    downloadChunks modelId S C rk is st reqs =
      (reqs ++ (downloadChunks modelId S C rk is st []).1,
        (downloadChunks modelId S C rk is st []).2) := by
  induction is generalizing st reqs with
  | nil => simp [downloadChunks]
  | cons i rest ih =>
    by_cases hpres : (getModelChunk st modelId i).isSome = true
    · have e1 : ∀ rs, downloadChunks modelId S C rk (i :: rest) st rs =
          downloadChunks modelId S C rk rest st rs := by
        intro rs
        rw [downloadChunks, if_pos hpres]
      rw [e1 reqs, e1 []]
      exact ih st reqs
    · have hpresF : (getModelChunk st modelId i).isSome = false := by
        simpa using hpres
      cases hrki : rk i with
      | true =>
        by_cases hm : modelId = ""
        · have hsv : saveModelChunk st modelId i = .error "Model ID is required" := by
            simp [saveModelChunk, hm]
          have e1 : ∀ rs, downloadChunks modelId S C rk (i :: rest) st rs =
              (rs ++ [reqOf S C i], .error "Model ID is required") := by
            intro rs
            rw [downloadChunks, if_neg (by simp [hpresF]), if_pos hrki, hsv]
            rfl
          rw [e1 reqs, e1 []]
          simp
        · have hsv := saveModelChunk_absent st modelId i hm (by simp [hpresF])
          have e1 : ∀ rs, downloadChunks modelId S C rk (i :: rest) st rs =
              downloadChunks modelId S C rk rest
                { st with chunks := st.chunks ++ [chunkRecOf modelId i] }
                (rs ++ [reqOf S C i]) := by
            intro rs
            rw [downloadChunks, if_neg (by simp [hpresF]), if_pos hrki, hsv]
            rfl
          rw [e1 reqs, e1 [], ih _ (reqs ++ [reqOf S C i]), ih _ ([] ++ [reqOf S C i])]
          simp
      | false =>
        have e1 : ∀ rs, downloadChunks modelId S C rk (i :: rest) st rs =
            (rs ++ [reqOf S C i], .error "Failed to download chunk") := by
          intro rs
          rw [downloadChunks, if_neg (by simp [hpresF]), if_neg (by simp [hrki])]
          rfl
        rw [e1 reqs, e1 []]
        simp

/-- Characterisation of the chunk loop on a list of pairwise-distinct
indices when every issued fetch succeeds: it requests and persists exactly
the indices whose chunk was missing beforehand, in order, and touches
nothing else. -/
theorem downloadChunks_spec (modelId : String) (S C : Nat) (rk : Nat → Bool)
    (is : List Nat) (st : Store)
    (hm : modelId ≠ "") (hnd : is.Nodup) (hrk : ∀ i ∈ is, rk i = true) :
    ∃ st',
      downloadChunks modelId S C rk is st [] =
        ((is.filter (fun i => !(getModelChunk st modelId i).isSome)).map
          (reqOf S C), .ok st') ∧
      st'.chunks = st.chunks ++
        (is.filter (fun i => !(getModelChunk st modelId i).isSome)).map
          (chunkRecOf modelId) ∧
      st'.models = st.models := by
  induction is generalizing st with
  | nil => exact ⟨st, by simp [downloadChunks], by simp, rfl⟩
  | cons i rest ih =>
    have hnd' : rest.Nodup := hnd.of_cons
    have hi : i ∉ rest := (List.nodup_cons.mp hnd).1
    have hrk' : ∀ j ∈ rest, rk j = true := fun j hj => hrk j (by simp [hj])
    have hrki : rk i = true := hrk i (by simp)
    by_cases hpres : (getModelChunk st modelId i).isSome = true
    · obtain ⟨st', h1, h2, h3⟩ := ih st hnd' hrk'
      have hstep : downloadChunks modelId S C rk (i :: rest) st [] =
          downloadChunks modelId S C rk rest st [] := by
        rw [downloadChunks, if_pos hpres]
      have hfil : (i :: rest).filter (fun j => !(getModelChunk st modelId j).isSome) =
          rest.filter (fun j => !(getModelChunk st modelId j).isSome) := by
        rw [List.filter_cons]
        simp [hpres]
      rw [hstep, hfil]
      exact ⟨st', h1, h2, h3⟩
    · have hpresF : (getModelChunk st modelId i).isSome = false := by
        simpa using hpres
      have hsave := saveModelChunk_absent st modelId i hm (by simp [hpresF])
      set st1 : Store := { st with chunks := st.chunks ++ [chunkRecOf modelId i] }
        with hst1
      have hsame : ∀ j ∈ rest,
          (getModelChunk st1 modelId j) = (getModelChunk st modelId j) := by
        intro j hj
        refine getModelChunk_append_one st modelId _ j ?_
        intro hkey
        refine hi ?_
        rw [chunkKey_inj_index hkey]
        exact hj
      obtain ⟨st', h1, h2, h3⟩ := ih st1 hnd' hrk'
      have hfilter : rest.filter (fun j => !(getModelChunk st1 modelId j).isSome) =
          rest.filter (fun j => !(getModelChunk st modelId j).isSome) := by
        apply List.filter_congr
        intro j hj
        rw [hsame j hj]
      have hstep : downloadChunks modelId S C rk (i :: rest) st [] =
          downloadChunks modelId S C rk rest st1 ([] ++ [reqOf S C i]) := by
        rw [downloadChunks, if_neg (by simp [hpresF]), if_pos hrki, hsave]
        rfl
      have hfil : (i :: rest).filter (fun j => !(getModelChunk st modelId j).isSome) =
          i :: rest.filter (fun j => !(getModelChunk st modelId j).isSome) := by
        rw [List.filter_cons]
        simp [hpresF]
      refine ⟨st', ?_, ?_, by simpa [hst1] using h3⟩
      · rw [hstep, downloadChunks_acc, h1, hfilter, hfil]
        simp
      · rw [h2, hfilter, hfil, hst1]
        simp

theorem find?_putModel (l : List ModelMeta) (m : ModelMeta) :
    (putModel l m).find? (fun x => x.id == m.id) = some m := by
  rw [putModel]
  by_cases hany : l.any (fun x => x.id == m.id) = true
  · rw [if_pos hany]
    induction l with
    | nil => simp at hany
    | cons x xs ih =>
      by_cases hx : (x.id == m.id) = true
      · rw [List.map_cons, if_pos hx]
        exact List.find?_cons_of_pos _ (by simp)
      · rw [List.map_cons, if_neg hx, List.find?_cons_of_neg _ (by simpa using hx)]
        exact ih (by simpa [List.any_cons, hx] using hany)
  · rw [if_neg hany]
    induction l with
    | nil => exact List.find?_cons_of_pos _ (by simp)
    | cons x xs ih =>
      have hcons := hany
      simp only [List.any_cons, Bool.or_eq_true, not_or] at hcons
      rw [List.cons_append, List.find?_cons_of_neg _ (by simpa using hcons.1)]
      exact ih (by simpa using hcons.2)

theorem filter_range_le (k N : Nat) (h : k ≤ N) :
    (List.range N).filter (fun i => k ≤ i) = List.range' k (N - k) := by
  induction N with
  | zero =>
    have hk0 : k = 0 := by omega
    subst hk0
    rfl
  | succ N ih =>
    rcases Nat.lt_or_ge N k with hlt | hge
    · have hkN : k = N + 1 := by omega
      subst hkN
      have h1 : (List.range (N + 1)).filter (fun i => N + 1 ≤ i) = [] := by
        apply List.filter_eq_nil_iff.mpr
        intro a ha
        simp only [List.mem_range] at ha
        simp only [decide_eq_true_eq]
        omega
      rw [h1]
      simp
    · rw [List.range_succ, List.filter_append, ih hge]
      have h2 : N + 1 - k = (N - k) + 1 := by omega
      rw [h2, List.range'_concat]
      have h3 : k + 1 * (N - k) = N := by omega
      rw [h3]
      have h4 : (List.range' k (N - k)).append ((List.filter (fun i => decide (k ≤ i)) [N]))
          = List.range' k (N - k) ++ [N] := by
        simp [hge]
      simpa using h4

end Chunking

namespace LLMWorkerPool

theorem poolInv_init (N : Nat) : PoolInv N (initState N) := by
  constructor
  · simp [initState]
  · simp [initState, List.nodup_range]

theorem poolInv_getWorker (N : Nat) (st : PoolState) (caller : Nat)
    (h : PoolInv N st) : PoolInv N (getWorker st caller).2 := by
  obtain ⟨hlen, hnd⟩ := h
  cases hidle : st.idle with
  | nil =>
    simp only [getWorker, hidle]
    exact ⟨by simpa [hidle] using hlen, by simpa [hidle] using hnd⟩
  | cons w rest =>
    rw [hidle] at hlen hnd
    simp only [getWorker, hidle]
    constructor
    · simp at hlen ⊢
      omega
    · simp only [List.cons_append, List.nodup_cons, List.mem_append] at hnd
      obtain ⟨hw, hnd⟩ := hnd
      rw [List.nodup_append] at hnd ⊢
      obtain ⟨h1, h2, h3⟩ := hnd
      refine ⟨h1, ?_, ?_⟩
      · rw [List.nodup_append]
        refine ⟨h2, by simp, ?_⟩
        intro a ha
        simp only [List.mem_singleton]
        rintro rfl
        exact hw (Or.inr ha)
      · intro a ha
        simp only [List.mem_append, List.mem_singleton]
        rintro (hb | rfl)
        · exact h3 ha hb
        · exact hw (Or.inl ha)

theorem poolInv_releaseWorker (N : Nat) (st : PoolState) (workerId : Nat)
    (h : PoolInv N st) : PoolInv N (releaseWorker st workerId).2 := by
  obtain ⟨hlen, hnd⟩ := h
  by_cases hbusy : workerId ∈ st.busy
  · have hidleNd : st.idle.Nodup := (List.nodup_append.mp hnd).1
    have hbusyNd : st.busy.Nodup := (List.nodup_append.mp hnd).2.1
    have hdisj : ∀ a ∈ st.idle, a ∉ st.busy := (List.nodup_append.mp hnd).2.2
    have herase_len : (st.busy.erase workerId).length = st.busy.length - 1 :=
      List.length_erase_of_mem hbusy
    have herase_nd : (st.busy.erase workerId).Nodup := hbusyNd.erase _
    have herase_sub : ∀ a ∈ st.busy.erase workerId, a ∈ st.busy :=
      fun a ha => List.mem_of_mem_erase ha
    have hw_not_erase : workerId ∉ st.busy.erase workerId :=
      fun hc => (List.Nodup.mem_erase_iff hbusyNd).mp hc |>.1 rfl
    cases hq : st.queue with
    | cons waiter restQ =>
      simp only [releaseWorker, if_pos hbusy, hq]
      constructor
      · simp only []
        have hpos : 1 ≤ st.busy.length :=
          List.length_pos.mpr (List.ne_nil_of_mem hbusy)
        have : (st.busy.erase workerId ++ [workerId]).length = st.busy.length := by
          simp only [List.length_append, List.length_singleton, herase_len]
          omega
        simpa [this] using hlen
      · simp only []
        rw [List.nodup_append]
        refine ⟨hidleNd, ?_, ?_⟩
        · rw [List.nodup_append]
          refine ⟨herase_nd, by simp, ?_⟩
          intro a ha
          simp only [List.mem_singleton]
          rintro rfl
          exact hw_not_erase ha
        · intro a ha
          simp only [List.mem_append, List.mem_singleton]
          rintro (hb | rfl)
          · exact hdisj a ha (herase_sub a hb)
          · exact hdisj a ha hbusy
    | nil =>
      simp only [releaseWorker, if_pos hbusy, hq]
      constructor
      · simp only [List.length_append, List.length_singleton]
        have hpos : 1 ≤ st.busy.length := List.length_pos.mpr
          (List.ne_nil_of_mem hbusy)
        omega
      · simp only []
        rw [List.nodup_append]
        refine ⟨?_, herase_nd, ?_⟩
        · rw [List.nodup_append]
          refine ⟨hidleNd, by simp, ?_⟩
          intro a ha
          simp only [List.mem_singleton]
          rintro rfl
          exact hdisj a ha hbusy
        · intro a ha
          rcases List.mem_append.mp ha with hb | hb
          · intro hc
            exact hdisj a hb (herase_sub a hc)
          · rw [List.mem_singleton] at hb
            subst hb
            exact hw_not_erase
  · simpa [releaseWorker, if_neg hbusy] using ⟨hlen, hnd⟩

theorem poolInv_terminate (N : Nat) (st : PoolState) :
    PoolInv N (terminate st) := by
  constructor <;> simp [terminate]

theorem poolInv_reachable {N : Nat} {st : PoolState} (h : Reachable N st) :
    PoolInv N st := by
  induction h with
  | init => exact poolInv_init N
  | step _ hstep ih =>
    cases hstep with
    | acquire caller st => exact poolInv_getWorker _ _ _ ih
    | release workerId st => exact poolInv_releaseWorker _ _ _ ih
    | terminate st => exact poolInv_terminate _ _

end LLMWorkerPool

/-! ## Claims -/

theorem downloadChunks_req_shape (modelId : String) (S C : Nat) (rk : Nat → Bool)
    (is : List Nat) :
    ∀ st : Store, ∀ r ∈ (Chunking.downloadChunks modelId S C rk is st []).1,
      r.first = r.index * C ∧ r.last = min S (r.index * C + C - 1) := by
  induction is with
  | nil =>
    intro st r hr
    simp [Chunking.downloadChunks] at hr
  | cons i rest ih =>
    intro st r hr
    by_cases hpres : (IndexedDB.getModelChunk st modelId i).isSome = true
    · rw [show Chunking.downloadChunks modelId S C rk (i :: rest) st [] =
          Chunking.downloadChunks modelId S C rk rest st [] from by
            rw [Chunking.downloadChunks, if_pos hpres]] at hr
      exact ih st r hr
    · have hpresF : (IndexedDB.getModelChunk st modelId i).isSome = false := by
        simpa using hpres
      cases hrki : rk i with
      | true =>
        by_cases hm : modelId = ""
        · have hsv : IndexedDB.saveModelChunk st modelId i =
              .error "Model ID is required" := by
            simp [IndexedDB.saveModelChunk, hm]
          rw [show Chunking.downloadChunks modelId S C rk (i :: rest) st [] =
              ([] ++ [Chunking.reqOf S C i], .error "Model ID is required") from by
                rw [Chunking.downloadChunks, if_neg (by simp [hpresF]),
                  if_pos hrki, hsv]
                rfl] at hr
          simp [Chunking.reqOf] at hr
          subst hr
          exact ⟨rfl, rfl⟩
        · have hsv := Chunking.saveModelChunk_absent st modelId i hm (by simp [hpresF])
          rw [show Chunking.downloadChunks modelId S C rk (i :: rest) st [] =
              Chunking.downloadChunks modelId S C rk rest
                { st with chunks := st.chunks ++ [Chunking.chunkRecOf modelId i] }
                ([] ++ [Chunking.reqOf S C i]) from by
                rw [Chunking.downloadChunks, if_neg (by simp [hpresF]),
                  if_pos hrki, hsv]
                rfl] at hr
          rw [Chunking.downloadChunks_acc] at hr
          have hr2 : r = Chunking.reqOf S C i ∨
              r ∈ (Chunking.downloadChunks modelId S C rk rest
                { st with chunks := st.chunks ++ [Chunking.chunkRecOf modelId i] }
                []).1 := by
            simpa using hr
          rcases hr2 with h | h
          · subst h
            exact ⟨rfl, rfl⟩
          · exact ih _ r h
      | false =>
        rw [show Chunking.downloadChunks modelId S C rk (i :: rest) st [] =
            ([] ++ [Chunking.reqOf S C i], .error "Failed to download chunk") from by
              rw [Chunking.downloadChunks, if_neg (by simp [hpresF]),
                if_neg (by simp [hrki])]
              rfl] at hr
        simp [Chunking.reqOf] at hr
        subst hr
        exact ⟨rfl, rfl⟩

theorem isModelDownloadComplete_iff (st0 : Store) (mid : String) :
    Chunking.isModelDownloadComplete st0 mid = true ↔
      ∃ meta, IndexedDB.getModelMetadata st0 mid = some meta ∧
        ∀ i < meta.chunks, (IndexedDB.getModelChunk st0 mid i).isSome = true := by
  unfold Chunking.isModelDownloadComplete IndexedDB.hasModelInDB
  cases hm : IndexedDB.getModelMetadata st0 mid with
  | none => simp
  | some meta =>
    simp only [Option.isSome_some, if_true]
    constructor
    · intro hall
      refine ⟨meta, rfl, ?_⟩
      intro i hi
      exact List.all_eq_true.mp hall i (List.mem_range.mpr hi)
    · rintro ⟨meta2, hmeta2, hforall⟩
      have hmm : meta2 = meta := by
        injection hmeta2 with h
        exact h.symm
      subst hmm
      apply List.all_eq_true.mpr
      intro i hi
      exact hforall i (List.mem_range.mp hi)

theorem getModelChunk_isSome_false (st : Store) (m : String) (j : Nat)
    (h : ∀ c ∈ st.chunks, c.id ≠ IndexedDB.chunkKey m j) :
    (IndexedDB.getModelChunk st m j).isSome = false := by
  cases hfind : IndexedDB.getModelChunk st m j with
  | none => rfl
  | some c =>
    exfalso
    have hcmem : c ∈ st.chunks := List.mem_of_find?_eq_some hfind
    have hcid : c.id = IndexedDB.chunkKey m j := by
      simpa using List.find?_some hfind
    exact h c hcmem hcid

theorem filter_system_map_replace (sp : String) (l : List LLMWorker.ChatMsg) :
    ((l.map (fun m =>
        if m.role == "system" then (⟨"system", sp⟩ : LLMWorker.ChatMsg) else m)).filter
      (fun m => m.role == "system")).length =
    (l.filter (fun m => m.role == "system")).length := by
  induction l with
  | nil => rfl
  | cons x xs ih =>
    by_cases hx : (x.role == "system") = true
    · rw [List.map_cons, if_pos hx, List.filter_cons, List.filter_cons, if_pos hx,
        if_pos (show ((⟨"system", sp⟩ : LLMWorker.ChatMsg).role == "system") = true
          from rfl)]
      simpa using ih
    · rw [List.map_cons, if_neg hx, List.filter_cons, List.filter_cons, if_neg hx,
        if_neg hx]
      exact ih

theorem filter_pos_of_any {α : Type} (p : α → Bool) (l : List α)
    (h : l.any p = true) : 0 < (l.filter p).length := by
  obtain ⟨x, hx, hpx⟩ := List.any_eq_true.mp h
  have hmem : x ∈ l.filter p := List.mem_filter.mpr ⟨hx, hpx⟩
  exact List.length_pos.mpr (List.ne_nil_of_mem hmem)

/-- C1: the claim says every failed `loadModel` call — including one where
the execution unit reports a load failure through a resolved channel —
returns `{success: false, error}` and releases the acquired slot.  The code
does the opposite on that path: the worker-side `loadModel` catches the
factory error and resolves with `{success: false, error}`, and the pool
then returns `{...result, workerId, success: true}` — the spread's
`success: false` is overwritten by the trailing `success: true` — and only
releases the slot in its `catch` branch, which a resolved channel never
reaches.  This theorem evaluates the model at the failing input: a pool of
size 1, a load whose unit reports failure `'boom'`; the call completes with
`success = true`, carries the error text, and leaves worker 0 busy. -/
theorem c1_unit_reported_load_failure_eval :
    LLMWorkerPool.loadModel (LLMWorkerPool.initState 1) 0
        (.resolved ⟨false, some "model-a", none, some "boom"⟩) =
      .completed ⟨true, some 0, some "model-a", none, some "boom"⟩
        ⟨[], [0], []⟩ := by
  rfl

/-- C2: in every reachable state of a pool of size `N`, at most `N` slots
are busy, no worker id occurs twice across the idle list and the busy map
(no slot is handed to two callers), and a `getWorker` call made while all
`N` slots are busy does not resolve: the caller is appended to the FIFO
`taskQueue` and the slot sets are untouched. -/
theorem c2_at_most_n_busy (N : Nat) (st : LLMWorkerPool.PoolState) (caller : Nat)
    (h : LLMWorkerPool.Reachable N st) :
    st.busy.length ≤ N ∧
    (st.idle ++ st.busy).Nodup ∧
    (st.busy.length = N →
      (LLMWorkerPool.getWorker st caller).1 = .enqueued ∧
      (LLMWorkerPool.getWorker st caller).2.queue = st.queue ++ [caller] ∧
      (LLMWorkerPool.getWorker st caller).2.busy = st.busy ∧
      (LLMWorkerPool.getWorker st caller).2.idle = st.idle) := by
  obtain ⟨hlen, hnd⟩ := LLMWorkerPool.poolInv_reachable h
  refine ⟨by omega, hnd, ?_⟩
  intro hfull
  have hidle : st.idle = [] := by
    have : st.idle.length = 0 := by omega
    exact List.length_eq_zero.mp this
  simp [LLMWorkerPool.getWorker, hidle]

theorem c2_at_most_n_busy_witness :
    ((LLMWorkerPool.getWorker (LLMWorkerPool.initState 1) 7).2.busy.length ≤ 1) ∧
    (((LLMWorkerPool.getWorker (LLMWorkerPool.initState 1) 7).2.idle ++
        (LLMWorkerPool.getWorker (LLMWorkerPool.initState 1) 7).2.busy).Nodup) ∧
    ((LLMWorkerPool.getWorker
        ((LLMWorkerPool.getWorker (LLMWorkerPool.initState 1) 7).2) 9).1 =
      .enqueued) := by
  have h := c2_at_most_n_busy 1
    ((LLMWorkerPool.getWorker (LLMWorkerPool.initState 1) 7).2) 9
    (LLMWorkerPool.Reachable.step LLMWorkerPool.Reachable.init
      (LLMWorkerPool.Step.acquire 7 (LLMWorkerPool.initState 1)))
  exact ⟨h.1, h.2.1, (h.2.2 (by decide)).1⟩

/-- C3: releasing a busy slot while the waiter queue is non-empty hands the
slot directly to the oldest waiter `w1` (the pool re-enters it into the
busy map and pops `w1` from the queue), bypassing the idle set; the younger
waiter `w2` stays queued, so `w1` is resolved before `w2`. -/
theorem c3_release_hands_slot_to_oldest_waiter (st : LLMWorkerPool.PoolState)
    (workerId w1 w2 : Nat) (restQ : List Nat)
    (hbusy : workerId ∈ st.busy) (hq : st.queue = w1 :: w2 :: restQ) :
    (LLMWorkerPool.releaseWorker st workerId).1 = .handedTo w1 workerId ∧
    (LLMWorkerPool.releaseWorker st workerId).2.queue = w2 :: restQ ∧
    (LLMWorkerPool.releaseWorker st workerId).2.idle = st.idle ∧
    workerId ∈ (LLMWorkerPool.releaseWorker st workerId).2.busy := by
  simp only [LLMWorkerPool.releaseWorker, if_pos hbusy, hq]
  simp

theorem c3_release_hands_slot_to_oldest_waiter_witness :
    (LLMWorkerPool.releaseWorker ⟨[], [3], [10, 11]⟩ 3).1 =
      .handedTo 10 3 ∧
    (LLMWorkerPool.releaseWorker ⟨[], [3], [10, 11]⟩ 3).2.queue = [11] ∧
    (LLMWorkerPool.releaseWorker ⟨[], [3], [10, 11]⟩ 3).2.idle = [] ∧
    3 ∈ (LLMWorkerPool.releaseWorker ⟨[], [3], [10, 11]⟩ 3).2.busy :=
  c3_release_hands_slot_to_oldest_waiter ⟨[], [3], [10, 11]⟩ 3 10 11 []
    (by decide) rfl

/-- C8 counterexample: the claim says a `generateText` call with a slot id
that is not busy "returns a structured error value … never an unhandled
promise rejection".  The code instead `throw`s (`Worker ${workerId} not
found or not busy`), i.e. the async call rejects its promise rather than
resolving with a structured `{success:false}` object: at the concrete
input below the model yields `Except.error`, not `Except.ok` of a
structured failure. -/
theorem c8_counterexample :
    LLMWorkerPool.generateText ⟨[0], [], []⟩ 5
        (.resolved ⟨true, some "text", none⟩) =
      .error "Worker 5 not found or not busy" := by
  rfl

/-- C8 amended: a `generateText` or `chatCompletion` call on a slot id not
currently in the busy map rejects (throws) with the descriptive message
`Worker <id> not found or not busy`; a call on a busy slot never rejects —
channel failures are folded into a resolved structured
`{success:false, error}` value. -/
theorem c8_amended (st : LLMWorkerPool.PoolState) (workerId : Nat)
    (outG outC : LLMWorkerPool.ChannelOutcome LLMWorkerPool.GenReply)
    (h : workerId ∉ st.busy) :
    LLMWorkerPool.generateText st workerId outG =
      .error ("Worker " ++ natToString workerId ++ " not found or not busy") ∧
    LLMWorkerPool.chatCompletion st workerId outC =
      .error ("Worker " ++ natToString workerId ++ " not found or not busy") ∧
    ∀ w2 ∈ st.busy,
      (∃ r, LLMWorkerPool.generateText st w2 outG = .ok r) ∧
      (∃ r, LLMWorkerPool.chatCompletion st w2 outC = .ok r) := by
  refine ⟨?_, ?_, ?_⟩
  · simp only [LLMWorkerPool.generateText, if_neg h]
  · simp only [LLMWorkerPool.chatCompletion, if_neg h]
  · intro w2 hw2
    constructor
    · simp only [LLMWorkerPool.generateText, if_pos hw2]
      cases outG with
      | resolved r => exact ⟨r, rfl⟩
      | rejected m => exact ⟨_, rfl⟩
    · simp only [LLMWorkerPool.chatCompletion, if_pos hw2]
      cases outC with
      | resolved r => exact ⟨r, rfl⟩
      | rejected m => exact ⟨_, rfl⟩

theorem c8_amended_witness :
    LLMWorkerPool.generateText ⟨[], [3], []⟩ 5 (.rejected "x") =
      .error "Worker 5 not found or not busy" ∧
    LLMWorkerPool.chatCompletion ⟨[], [3], []⟩ 5 (.rejected "y") =
      .error "Worker 5 not found or not busy" := by
  have h := c8_amended ⟨[], [3], []⟩ 5 (.rejected "x") (.rejected "y") (by decide)
  exact ⟨h.1.trans (by rfl), h.2.1.trans (by rfl)⟩

/-- C4: re-invoking a download through `resumeModelDownload` (which re-runs
`downloadModelInChunks` with the saved url and chunk size) on a store where
chunks `[0..k)` of the model are persisted and chunks `[k..N)` are not
issues ranged fetches exactly for the missing indices `k, k+1, …, N-1` —
an index whose chunk record exists is skipped and never re-fetched — and
the run succeeds. -/
theorem c4_resume_refetches_only_missing (net : Chunking.DownloadNet)
    (st : Store) (modelId : String) (meta : ModelMeta) (S C k : Nat)
    (hm : modelId ≠ "")
    (hmeta : IndexedDB.getModelMetadata st modelId = some meta)
    (hcs : meta.chunkSize = C)
    (hhead : net.headOk = true) (hlen : net.contentLength = S)
    (hS0 : 0 < S) (_hC0 : 0 < C)
    (hrk : ∀ i, net.rangeOk i = true)
    (hk : k ≤ (S + C - 1) / C)
    (hpresent : ∀ j, j < k → (IndexedDB.getModelChunk st modelId j).isSome = true)
    (hmissing : ∀ j, k ≤ j → (IndexedDB.getModelChunk st modelId j).isSome = false) :
    (Chunking.resumeModelDownload net modelId st).1 =
      (List.range' k ((S + C - 1) / C - k)).map (Chunking.reqOf S C) ∧
    ∃ st', (Chunking.resumeModelDownload net modelId st).2 = Except.ok st' := by
  have hrun : Chunking.resumeModelDownload net modelId st =
      Chunking.downloadChunks modelId S C net.rangeOk
        (List.range ((S + C - 1) / C))
        { st with models :=
            IndexedDB.putModel st.models ⟨modelId, meta.url, S, C, (S + C - 1) / C⟩ }
        [] := by
    simp only [Chunking.resumeModelDownload, hmeta, hcs,
      Chunking.downloadModelInChunks, hhead, hlen, IndexedDB.saveModelMetadata]
    rw [if_neg (by simp), if_neg (by omega), if_neg hm]
  obtain ⟨st', h1, h2, h3⟩ := Chunking.downloadChunks_spec modelId S C net.rangeOk
    (List.range ((S + C - 1) / C))
    { st with models :=
        IndexedDB.putModel st.models ⟨modelId, meta.url, S, C, (S + C - 1) / C⟩ }
    hm (List.nodup_range _) (fun i _ => hrk i)
  have hfeq : (List.range ((S + C - 1) / C)).filter
      (fun i => !(IndexedDB.getModelChunk
        { st with models :=
            IndexedDB.putModel st.models ⟨modelId, meta.url, S, C, (S + C - 1) / C⟩ }
        modelId i).isSome) =
      (List.range ((S + C - 1) / C)).filter (fun i => k ≤ i) := by
    apply List.filter_congr
    intro i _
    show (!(IndexedDB.getModelChunk st modelId i).isSome) = decide (k ≤ i)
    by_cases hik : k ≤ i
    · rw [hmissing i hik]
      simp [hik]
    · rw [hpresent i (by omega)]
      simp [hik]
  rw [hrun, h1, hfeq, Chunking.filter_range_le k _ hk]
  exact ⟨rfl, st', rfl⟩

theorem c4_resume_refetches_only_missing_witness :
    (Chunking.resumeModelDownload ⟨true, 150, fun _ => true⟩ "m1"
        ⟨[⟨"m1", "u", 150, 50, 3⟩],
          [⟨"m1_chunk_0", "m1", 0⟩, ⟨"m1_chunk_1", "m1", 1⟩]⟩).1 =
      [⟨2, 100, 149⟩] := by
  have h := c4_resume_refetches_only_missing ⟨true, 150, fun _ => true⟩
    ⟨[⟨"m1", "u", 150, 50, 3⟩],
      [⟨"m1_chunk_0", "m1", 0⟩, ⟨"m1_chunk_1", "m1", 1⟩]⟩
    "m1" ⟨"m1", "u", 150, 50, 3⟩ 150 50 2
    (by decide) rfl rfl rfl rfl (by decide) (by decide)
    (fun i => rfl) (by decide)
    (by
      intro j hj
      interval_cases j <;> decide)
    (by
      intro j hj
      apply getModelChunk_isSome_false
      intro c hc hcid
      rcases List.mem_cons.mp hc with rfl | hc
      · have h0 : (0 : Nat) = j := IndexedDB.chunkKey_inj_index
          (show IndexedDB.chunkKey "m1" 0 = IndexedDB.chunkKey "m1" j from hcid)
        omega
      rcases List.mem_cons.mp hc with rfl | hc
      · have h1 : (1 : Nat) = j := IndexedDB.chunkKey_inj_index
          (show IndexedDB.chunkKey "m1" 1 = IndexedDB.chunkKey "m1" j from hcid)
        omega
      · exact absurd hc (List.not_mem_nil c))
  rw [h.1]
  decide

/-- C5: a successful `downloadModelInChunks` run of total size `S` and
chunk size `C`, started from a store holding no chunk records for the
model, leaves exactly `⌈S/C⌉` chunk records for that model id — one per
index in `[0, ⌈S/C⌉)` — and `isModelDownloadComplete` returns true;
moreover (last conjunct) `isModelDownloadComplete` returns true iff
metadata exists and a chunk record is found for every index below the
recorded chunk count, re-read from the store on each call. -/
theorem c5_download_completes_store (net : Chunking.DownloadNet)
    (st : Store) (url modelId : String) (S C : Nat)
    (hm : modelId ≠ "")
    (hhead : net.headOk = true) (hlen : net.contentLength = S)
    (hS0 : 0 < S) (_hC0 : 0 < C)
    (hrk : ∀ i, net.rangeOk i = true)
    (hfresh : ∀ c ∈ st.chunks, c.modelId ≠ modelId ∧
      ∀ j, c.id ≠ IndexedDB.chunkKey modelId j) :
    (∃ st',
      (Chunking.downloadModelInChunks net url modelId C st).2 = Except.ok st' ∧
      (st'.chunks.filter (fun c => c.modelId == modelId)).length =
        (S + C - 1) / C ∧
      (∀ i < (S + C - 1) / C,
        (IndexedDB.getModelChunk st' modelId i).isSome = true) ∧
      Chunking.isModelDownloadComplete st' modelId = true) ∧
    (∀ st0 mid, Chunking.isModelDownloadComplete st0 mid = true ↔
      ∃ meta, IndexedDB.getModelMetadata st0 mid = some meta ∧
        ∀ i < meta.chunks, (IndexedDB.getModelChunk st0 mid i).isSome = true) := by
  refine ⟨?_, isModelDownloadComplete_iff⟩
  have hrun : Chunking.downloadModelInChunks net url modelId C st =
      Chunking.downloadChunks modelId S C net.rangeOk
        (List.range ((S + C - 1) / C))
        { st with models :=
            IndexedDB.putModel st.models ⟨modelId, url, S, C, (S + C - 1) / C⟩ }
        [] := by
    simp only [Chunking.downloadModelInChunks, hhead, hlen,
      IndexedDB.saveModelMetadata]
    rw [if_neg (by simp), if_neg (by omega), if_neg hm]
  obtain ⟨st', h1, h2, h3⟩ := Chunking.downloadChunks_spec modelId S C net.rangeOk
    (List.range ((S + C - 1) / C))
    { st with models :=
        IndexedDB.putModel st.models ⟨modelId, url, S, C, (S + C - 1) / C⟩ }
    hm (List.nodup_range _) (fun i _ => hrk i)
  have hallmissing : (List.range ((S + C - 1) / C)).filter
      (fun i => !(IndexedDB.getModelChunk
        { st with models :=
            IndexedDB.putModel st.models ⟨modelId, url, S, C, (S + C - 1) / C⟩ }
        modelId i).isSome) =
      List.range ((S + C - 1) / C) := by
    apply List.filter_eq_self.mpr
    intro i _
    have hnone : (IndexedDB.getModelChunk st modelId i).isSome = false := by
      apply getModelChunk_isSome_false
      intro c hc
      exact (hfresh c hc).2 i
    show (!(IndexedDB.getModelChunk st modelId i).isSome) = true
    rw [hnone]
    rfl
  refine ⟨st', ?_, ?_, ?_, ?_⟩
  · rw [hrun, h1]
  · rw [h2, hallmissing]
    rw [List.filter_append]
    have hold : st.chunks.filter (fun c => c.modelId == modelId) = [] := by
      apply List.filter_eq_nil_iff.mpr
      intro c hc
      simpa using (hfresh c hc).1
    have hnew : ((List.range ((S + C - 1) / C)).map
        (Chunking.chunkRecOf modelId)).filter (fun c => c.modelId == modelId) =
        (List.range ((S + C - 1) / C)).map (Chunking.chunkRecOf modelId) := by
      apply List.filter_eq_self.mpr
      intro c hc
      obtain ⟨i, _, rfl⟩ := List.mem_map.mp hc
      simp [Chunking.chunkRecOf]
    rw [hold, hnew]
    simp
  · intro i hi
    have hmem : Chunking.chunkRecOf modelId i ∈ st'.chunks := by
      rw [h2]
      refine List.mem_append.mpr (Or.inr ?_)
      rw [hallmissing]
      exact List.mem_map.mpr ⟨i, List.mem_range.mpr hi, rfl⟩
    rw [Option.isSome_iff_exists]
    have : ∃ c, c ∈ st'.chunks ∧ (c.id == IndexedDB.chunkKey modelId i) = true :=
      ⟨Chunking.chunkRecOf modelId i, hmem, by simp [Chunking.chunkRecOf]⟩
    obtain ⟨c, hcall⟩ := List.find?_isSome.mpr this |> Option.isSome_iff_exists.mp
    exact ⟨c, hcall⟩
  · rw [isModelDownloadComplete_iff]
    refine ⟨⟨modelId, url, S, C, (S + C - 1) / C⟩, ?_, ?_⟩
    · have : st'.models = IndexedDB.putModel st.models
          ⟨modelId, url, S, C, (S + C - 1) / C⟩ := h3
      rw [IndexedDB.getModelMetadata, this]
      exact Chunking.find?_putModel st.models ⟨modelId, url, S, C, (S + C - 1) / C⟩
    · intro i hi
      have hmem : Chunking.chunkRecOf modelId i ∈ st'.chunks := by
        rw [h2]
        refine List.mem_append.mpr (Or.inr ?_)
        rw [hallmissing]
        exact List.mem_map.mpr ⟨i, List.mem_range.mpr hi, rfl⟩
      exact List.find?_isSome.mpr
        ⟨Chunking.chunkRecOf modelId i, hmem, by simp [Chunking.chunkRecOf]⟩

theorem c5_download_completes_store_witness :
    ((Chunking.downloadModelInChunks ⟨true, 150, fun _ => true⟩ "u" "m1" 50
        ⟨[], []⟩).2.map
      (fun st' => ((st'.chunks.filter (fun c => c.modelId == "m1")).length,
        Chunking.isModelDownloadComplete st' "m1"))) = Except.ok (3, true) := by
  obtain ⟨⟨st', h1, h2, h3, h4⟩, _⟩ := c5_download_completes_store
    ⟨true, 150, fun _ => true⟩ ⟨[], []⟩ "u" "m1" 150 50
    (by decide) rfl rfl (by decide) (by decide) (fun i => rfl)
    (by intro c hc; exact absurd hc (List.not_mem_nil c))
  rw [h1]
  simp only [Except.map]
  rw [h2, h4]

/-- C6 counterexample: the claim's formula for the last requested byte is
`min(S, (i+1)*C) - 1`, never exceeding `S-1`.  The code computes
`min(S, i*C + C - 1)`: for a partial final chunk (`S = 120`, `C = 50`,
chunk 2) the issued request is `bytes=100-120` — its end index is `S`,
one past `S-1 = 119 = min(S, (i+1)*C) - 1`. -/
theorem c6_counterexample :
    (Chunking.downloadModelInChunks ⟨true, 120, fun _ => true⟩ "u" "m" 50
        ⟨[], []⟩).1 =
      [⟨0, 0, 49⟩, ⟨1, 50, 99⟩, ⟨2, 100, 120⟩] ∧
    ¬ ((120 : Nat) = min 120 ((2 + 1) * 50) - 1) := by
  exact ⟨by rfl, by decide⟩

/-- C6 amended: every ranged GET issued by `downloadModelInChunks` for a
chunk index `i` requests first byte `i*C` and last byte
`min(S, i*C + C - 1)`; this agrees with the claim's `min(S,(i+1)*C) - 1`
whenever the chunk is full (in particular `S=150`, `C=50`, chunk 2 yields
`bytes=100-149`), but for a partial final chunk the end index is `S`
rather than `S-1`. -/
theorem c6_amended (net : Chunking.DownloadNet) (url modelId : String)
    (C : Nat) (st : Store) :
    ∀ r ∈ (Chunking.downloadModelInChunks net url modelId C st).1,
      r.first = r.index * C ∧
      r.last = min net.contentLength (r.index * C + C - 1) := by
  intro r hr
  rw [Chunking.downloadModelInChunks] at hr
  split at hr
  · simp at hr
  · split at hr
    · simp at hr
    · simp only [IndexedDB.saveModelMetadata] at hr
      by_cases hm : modelId = ""
      · rw [if_pos hm] at hr
        simp at hr
      · rw [if_neg hm] at hr
        exact downloadChunks_req_shape modelId net.contentLength C net.rangeOk _ _ r hr

theorem c6_amended_witness :
    (⟨2, 100, 149⟩ : Chunking.RangeReq) ∈
      (Chunking.downloadModelInChunks ⟨true, 150, fun _ => true⟩ "u" "m" 50
        ⟨[], []⟩).1 ∧
    (100 = 2 * 50 ∧ 149 = min 150 (2 * 50 + 50 - 1)) := by
  refine ⟨by decide, ?_⟩
  exact c6_amended ⟨true, 150, fun _ => true⟩ "u" "m" 50 ⟨[], []⟩
    ⟨2, 100, 149⟩ (by decide)

/-- C7 counterexample: the claim says the prepared sequence contains
"exactly one" system-role message.  When the caller's messages already
contain two system messages, the code's `map` rewrites both of them, so the
runtime receives two system messages, not one. -/
theorem c7_counterexample :
    LLMWorker.prepareChatMessages (some "p")
        [⟨"system", "a"⟩, ⟨"system", "b"⟩, ⟨"user", "hi"⟩] =
      [⟨"system", "p"⟩, ⟨"system", "p"⟩, ⟨"user", "hi"⟩] ∧
    ((LLMWorker.prepareChatMessages (some "p")
        [⟨"system", "a"⟩, ⟨"system", "b"⟩, ⟨"user", "hi"⟩]).filter
      (fun m => m.role == "system")).length ≠ 1 := by
  constructor
  · rfl
  · decide

/-- C7 amended: for a non-blank `systemPrompt` and a message sequence
containing at most one system-role message, the sequence passed to the
runtime contains exactly one system message, every system message in it
carries the caller-supplied prompt, and when no system message existed one
is prepended at the front (in particular `systemPrompt="Be terse"` with
`[{user,"hi"}]` yields `[{system,"Be terse"},{user,"hi"}]`; with two or
more pre-existing system messages all of them are rewritten, preserving
multiplicity). -/
theorem c7_amended (sp : String) (messages : List LLMWorker.ChatMsg)
    (hsp : LLMWorker.jsTrim sp ≠ "")
    (hone : (messages.filter (fun m => m.role == "system")).length ≤ 1) :
    ((LLMWorker.prepareChatMessages (some sp) messages).filter
      (fun m => m.role == "system")).length = 1 ∧
    (∀ m ∈ LLMWorker.prepareChatMessages (some sp) messages,
      m.role = "system" → m.content = sp) ∧
    ((messages.filter (fun m => m.role == "system")).length = 0 →
      LLMWorker.prepareChatMessages (some sp) messages =
        ⟨"system", sp⟩ :: messages) := by
  have hsp0 : sp ≠ "" := fun h => hsp (by rw [h]; rfl)
  have hcond : sp ≠ "" ∧ LLMWorker.jsTrim sp ≠ "" := ⟨hsp0, hsp⟩
  by_cases hAny : messages.any (fun m => m.role == "system") = true
  · have hout : LLMWorker.prepareChatMessages (some sp) messages =
        messages.map (fun m =>
          if m.role == "system" then ⟨"system", sp⟩ else m) := by
      simp only [LLMWorker.prepareChatMessages, if_pos hcond, if_pos hAny]
    refine ⟨?_, ?_, ?_⟩
    · rw [hout, filter_system_map_replace]
      have h1 := filter_pos_of_any _ messages hAny
      omega
    · intro m hm hrole
      rw [hout] at hm
      obtain ⟨m0, hm0, rfl⟩ := List.mem_map.mp hm
      by_cases hx : (m0.role == "system") = true
      · simp [hx]
      · rw [if_neg (by simpa using hx)] at hrole ⊢
        exact absurd (by simp [hrole]) hx
    · intro h0
      have h1 := filter_pos_of_any _ messages hAny
      omega
  · have hAnyF : messages.any (fun m => m.role == "system") = false := by
      simpa using hAny
    have hout : LLMWorker.prepareChatMessages (some sp) messages =
        ⟨"system", sp⟩ :: messages := by
      simp only [LLMWorker.prepareChatMessages, if_pos hcond, hAnyF]
      rfl
    have hfilter0 : messages.filter (fun m => m.role == "system") = [] := by
      apply List.filter_eq_nil_iff.mpr
      intro a ha
      have := List.any_eq_false.mp hAnyF a ha
      simpa using this
    refine ⟨?_, ?_, fun _ => hout⟩
    · rw [hout, List.filter_cons]
      simp [hfilter0]
    · intro m hm hrole
      rw [hout] at hm
      rcases List.mem_cons.mp hm with rfl | hm
      · rfl
      · exfalso
        have := List.any_eq_false.mp hAnyF m hm
        simp [hrole] at this

theorem c7_amended_witness :
    LLMWorker.jsTrim "Be terse" ≠ "" ∧
    LLMWorker.prepareChatMessages (some "Be terse")
        [⟨"user", "hi"⟩] =
      [⟨"system", "Be terse"⟩, ⟨"user", "hi"⟩] := by
  refine ⟨by decide, ?_⟩
  exact (c7_amended "Be terse" [⟨"user", "hi"⟩] (by decide) (by decide)).2.2
    (by decide)

/-- C9: `deleteModel(modelId)` queues the metadata delete and every chunk
delete of that model in one transaction, so whatever the transaction
outcome, the store afterwards either is unchanged or holds neither the
metadata nor any chunk of the model; on commit all other models' records
survive (the `hnd` hypothesis is the store's own key invariant: primary
keys in the `chunks` table are unique). -/
theorem c9_deleteModel_atomic (st : Store) (modelId : String) (committed : Bool)
    (hnd : (st.chunks.map (fun c => c.id)).Nodup) :
    (IndexedDB.deleteModel st modelId committed = st ∨
      (IndexedDB.getModelMetadata
          (IndexedDB.deleteModel st modelId committed) modelId = none ∧
        (IndexedDB.deleteModel st modelId committed).chunks.filter
          (fun c => c.modelId == modelId) = [])) ∧
    (committed = true →
      IndexedDB.getModelMetadata
          (IndexedDB.deleteModel st modelId committed) modelId = none ∧
      (IndexedDB.deleteModel st modelId committed).chunks.filter
        (fun c => c.modelId == modelId) = [] ∧
      (∀ m ∈ st.models, m.id ≠ modelId →
        m ∈ (IndexedDB.deleteModel st modelId committed).models) ∧
      (∀ c ∈ st.chunks, c.modelId ≠ modelId →
        c ∈ (IndexedDB.deleteModel st modelId committed).chunks)) ∧
    (committed = false → IndexedDB.deleteModel st modelId committed = st) := by
  cases committed with
  | false =>
    refine ⟨Or.inl rfl, ?_, fun _ => rfl⟩
    intro h
    exact absurd h Bool.false_ne_true
  | true =>
    have hsteq : IndexedDB.deleteModel st modelId true =
        (IndexedDB.deleteModelOps st modelId).foldl IndexedDB.applyOp st := rfl
    have hmeta : IndexedDB.getModelMetadata
        (IndexedDB.deleteModel st modelId true) modelId = none := by
      apply List.find?_eq_none.mpr
      intro m hm
      rw [hsteq] at hm
      have h2 := (IndexedDB.foldl_applyOp_models _ _ m hm).2 modelId
        (by simp [IndexedDB.deleteModelOps])
      simpa using h2
    have hchunks : (IndexedDB.deleteModel st modelId true).chunks.filter
        (fun c => c.modelId == modelId) = [] := by
      apply List.filter_eq_nil_iff.mpr
      intro c hc hcM
      rw [hsteq] at hc
      obtain ⟨hmem, hops⟩ := IndexedDB.foldl_applyOp_chunks _ _ c hc
      have hin : IndexedDB.TxOp.delChunk c.id ∈ IndexedDB.deleteModelOps st modelId := by
        simp only [IndexedDB.deleteModelOps, List.mem_cons, List.mem_map]
        exact Or.inr ⟨c, List.mem_filter.mpr ⟨hmem, hcM⟩, rfl⟩
      have := hops c.id hin
      simp at this
    refine ⟨Or.inr ⟨hmeta, hchunks⟩, fun _ => ⟨hmeta, hchunks, ?_, ?_⟩,
      fun h => nomatch h⟩
    · intro m hm hne
      rw [hsteq]
      apply IndexedDB.foldl_applyOp_models_keep _ _ _ hm
      intro mid hmid
      simp only [IndexedDB.deleteModelOps, List.mem_cons, List.mem_map] at hmid
      rcases hmid with heq | ⟨a, _, ha⟩
      · cases heq
        exact hne
      · exact absurd ha (by simp)
    · intro c hc hne
      rw [hsteq]
      apply IndexedDB.foldl_applyOp_chunks_keep _ _ _ hc
      intro cid hcid
      simp only [IndexedDB.deleteModelOps, List.mem_cons, List.mem_map] at hcid
      rcases hcid with heq | ⟨a, haf, ha⟩
      · exact absurd heq (by simp)
      · have haid : a.id = cid := by
          injection ha
        subst haid
        intro hcaid
        have hamem := List.mem_filter.mp haf
        have hca : c = a := List.inj_on_of_nodup_map hnd hc hamem.1 hcaid
        refine hne ?_
        rw [hca]
        simpa using hamem.2

theorem c9_deleteModel_atomic_witness :
    IndexedDB.getModelMetadata
        (IndexedDB.deleteModel
          ⟨[⟨"m1", "u1", 100, 50, 2⟩, ⟨"m2", "u2", 100, 50, 2⟩],
            [⟨"m1_chunk_0", "m1", 0⟩, ⟨"m2_chunk_0", "m2", 0⟩]⟩ "m1" true) "m1" =
      none ∧
    (IndexedDB.deleteModel
        ⟨[⟨"m1", "u1", 100, 50, 2⟩, ⟨"m2", "u2", 100, 50, 2⟩],
          [⟨"m1_chunk_0", "m1", 0⟩, ⟨"m2_chunk_0", "m2", 0⟩]⟩ "m1" true).chunks.filter
      (fun c => c.modelId == "m1") = [] ∧
    (⟨"m2", "u2", 100, 50, 2⟩ : ModelMeta) ∈
      (IndexedDB.deleteModel
        ⟨[⟨"m1", "u1", 100, 50, 2⟩, ⟨"m2", "u2", 100, 50, 2⟩],
          [⟨"m1_chunk_0", "m1", 0⟩, ⟨"m2_chunk_0", "m2", 0⟩]⟩ "m1" true).models ∧
    IndexedDB.deleteModel
        ⟨[⟨"m1", "u1", 100, 50, 2⟩, ⟨"m2", "u2", 100, 50, 2⟩],
          [⟨"m1_chunk_0", "m1", 0⟩, ⟨"m2_chunk_0", "m2", 0⟩]⟩ "m1" false =
      ⟨[⟨"m1", "u1", 100, 50, 2⟩, ⟨"m2", "u2", 100, 50, 2⟩],
        [⟨"m1_chunk_0", "m1", 0⟩, ⟨"m2_chunk_0", "m2", 0⟩]⟩ := by
  have h := c9_deleteModel_atomic
    ⟨[⟨"m1", "u1", 100, 50, 2⟩, ⟨"m2", "u2", 100, 50, 2⟩],
      [⟨"m1_chunk_0", "m1", 0⟩, ⟨"m2_chunk_0", "m2", 0⟩]⟩ "m1" true (by decide)
  have h2 := c9_deleteModel_atomic
    ⟨[⟨"m1", "u1", 100, 50, 2⟩, ⟨"m2", "u2", 100, 50, 2⟩],
      [⟨"m1_chunk_0", "m1", 0⟩, ⟨"m2_chunk_0", "m2", 0⟩]⟩ "m1" false (by decide)
  exact ⟨(h.2.1 rfl).1, (h.2.1 rfl).2.1,
    (h.2.1 rfl).2.2.1 ⟨"m2", "u2", 100, 50, 2⟩ (by decide) (by decide),
    h2.2.2 rfl⟩

/-- C10: when the model-runtime factory throws during a worker-side load
(on a unit that was not mid-load and did not already hold the requested
model), the unit ends in the Empty state — `engine` and `modelId` reset to
`null`, `isLoading` cleared — the reply is a structured failure, and on the
Empty unit every `generateText`/`chatCompletion` request fails with
`No model loaded` until a later load succeeds (a successful load moves the
unit to Loaded). -/
theorem c10_failed_load_yields_empty_unit (st : LLMWorker.UnitState)
    (reqId msg : String) (e : LLMWorker.Engine)
    (callG : Except String String) (callC : Except String Unit)
    (sys : Option String) (msgs : List LLMWorker.ChatMsg)
    (h1 : st.isLoading = false)
    (h2 : ¬ (st.engine.isSome ∧ st.modelId = some reqId)) :
    LLMWorker.loadModel st reqId (.threw msg) =
      .ok (⟨false, some reqId, none,
          some (if msg = "" then "Unknown error loading model" else msg)⟩,
        LLMWorker.emptyUnit) ∧
    LLMWorker.generateText LLMWorker.emptyUnit callG = .error "No model loaded" ∧
    (LLMWorker.chatCompletion LLMWorker.emptyUnit sys msgs callC).reply =
      .error "No model loaded" ∧
    LLMWorker.loadModel LLMWorker.emptyUnit reqId (.created e) =
      .ok (⟨true, some reqId, some "Model loaded successfully", none⟩,
        ⟨some e, some reqId, false⟩) := by
  refine ⟨?_, rfl, rfl, rfl⟩
  simp only [LLMWorker.loadModel, h1]
  rw [if_neg (by simp), if_neg h2]
  rfl

theorem c10_failed_load_yields_empty_unit_witness :
    LLMWorker.loadModel ⟨some ⟨1, true, true, true⟩, some "m1", false⟩ "m2"
        (.threw "boom") =
      .ok (⟨false, some "m2", none, some "boom"⟩, LLMWorker.emptyUnit) ∧
    LLMWorker.generateText LLMWorker.emptyUnit (.ok "txt") =
      .error "No model loaded" ∧
    (LLMWorker.chatCompletion LLMWorker.emptyUnit none [] (.ok ())).reply =
      .error "No model loaded" := by
  have h := c10_failed_load_yields_empty_unit
    ⟨some ⟨1, true, true, true⟩, some "m1", false⟩ "m2" "boom"
    ⟨2, true, true, true⟩ (.ok "txt") (.ok ()) none [] rfl (by decide)
  exact ⟨h.1.trans (by rfl), h.2.1, h.2.2.1⟩

end LocalLLM
